import Mathlib

/-!
Verification of the firewall-analyzer backend: a shallow embedding of the
policy manager (`src/services/policy_manager.py`), the decision engine
(`src/services/decision_engine.py`) and the batching AI client
(`src/services/ai_service_client.py`), with theorems settling the stated
claims about them.

Modelling conventions:
* Python `float` anomaly scores are modelled as rationals (`ℚ`); all the
  score literals appearing in the code (`0.8` and the mock scores) are exact
  decimals and the only operations used on them are comparisons, which the
  rationals model exactly.
* Python dictionaries are modelled as association lists (`List (key × val)`,
  most-recent binding first) or, for the per-field indexes, as total
  functions defaulting to the empty set; Python `set` is `Finset ℕ`.
* The SHA-256 hashing inside `_make_cache_key` is modelled by the key string
  itself: every property proved here depends only on the hash being a
  deterministic function of that string.
* `async` functions are modelled as pure functions of their inputs plus an
  oracle for the downstream call (the AI client is an oracle
  `Connection → Except String ℚ` inside the decision engine); exceptions are
  `Except`.
-/

namespace Firewall

/-- The four connection attributes a policy condition may constrain
(`ConnectionField` in `src/core/models.py`). -/
inductive ConnectionField
  | source_ip
  | destination_ip
  | destination_port
  | protocol
deriving DecidableEq, Repr

/-- A dynamically typed field value (`value: Any` in `PolicyCondition`):
the IPs and the protocol are strings, the destination port is an integer. -/
inductive FieldValue
  | str (s : String)
  | int (n : Int)
deriving DecidableEq, Repr

/-- A policy condition (`PolicyCondition` in `src/core/models.py`).  The
`operator` field of the source is the literal `"=="` and carries no
information, so it is dropped from the model. -/
structure PolicyCondition where
  field : ConnectionField
  value : FieldValue
deriving DecidableEq, Repr

/-- A policy action (`Literal["allow", "block", "alert"]`). -/
inductive Action
  | allow
  | block
  | alert
deriving DecidableEq, Repr

/-- A final verdict (`Literal["allow", "block", "alert", "drop"]`). -/
inductive Decision
  | allow
  | block
  | alert
  | drop
deriving DecidableEq, Repr

/-- The decision corresponding to a policy action
(`decision = matched_policy.action` in the engine). -/
def Action.toDecision : Action → Decision
  | .allow => .allow
  | .block => .block
  | .alert => .alert

/-- A policy (`Policy` in `src/core/models.py`).  The mutable
`_original_order` attribute set by the manager is represented positionally:
a stored policy's order is its index in the manager's policy list. -/
structure Policy where
  policy_id : String
  conditions : List PolicyCondition
  action : Action
deriving DecidableEq, Repr

/-- A connection record (`Connection` in `src/core/models.py`); the
timestamp is opaque to every operation modelled here. -/
structure Connection where
  connection_id : String
  source_ip : String
  destination_ip : String
  destination_port : Int
  protocol : String
  timestamp : Int
deriving DecidableEq, Repr

/-- `getattr(connection, field)` for the four indexed fields. -/
def getField (c : Connection) : ConnectionField → FieldValue
  | .source_ip => .str c.source_ip
  | .destination_ip => .str c.destination_ip
  | .destination_port => .int c.destination_port
  | .protocol => .str c.protocol

/-! ## PolicyManager (`src/services/policy_manager.py`) -/

/-- The state of a `PolicyManager`: the ordered policy list, the
`policy_id → policy` map, the next insertion order, the set of orders of
condition-free policies, and the per-field value → orders indexes (a total
function defaulting to `∅`, matching `dict.get` returning `None`). -/
structure PMState where
  policies : List Policy
  policy_id_map : List (String × Policy)
  next_order : Nat
  policies_without_conditions : Finset Nat
  indexes : ConnectionField → FieldValue → Finset Nat

/-- A freshly constructed `PolicyManager` (`PolicyManager.__init__`). -/
def PMState.init : PMState where
  policies := []
  policy_id_map := []
  next_order := 0
  policies_without_conditions := ∅
  indexes := fun _ _ => ∅

/-- One step of `_update_indexes`: register `order` under
`condition.field = condition.value`.  The source guard
`if field in self._indexes` is always true because `ConnectionField` has
exactly the four indexed fields. -/
def index_insert (idx : ConnectionField → FieldValue → Finset Nat)
    (cond : PolicyCondition) (order : Nat) :
    ConnectionField → FieldValue → Finset Nat :=
  fun f v =>
    if f = cond.field ∧ v = cond.value then insert order (idx f v) else idx f v

/-- `_update_indexes`: add every condition of the policy to the indexes. -/
def update_indexes (idx : ConnectionField → FieldValue → Finset Nat)
    (conds : List PolicyCondition) (order : Nat) :
    ConnectionField → FieldValue → Finset Nat :=
  conds.foldl (fun ix cond => index_insert ix cond order) idx

/-- `PolicyManager.add_policy`: fails if the id is already registered;
otherwise assigns the next order, appends, registers the id, records a
condition-free policy in the dedicated set, and updates the indexes. -/
def add_policy (st : PMState) (p : Policy) : Except String PMState :=
  if (st.policy_id_map.lookup p.policy_id).isSome then
    .error ("Policy ID " ++ p.policy_id ++ " already exists.")
  else
    .ok
      { policies := st.policies ++ [p]
        policy_id_map := (p.policy_id, p) :: st.policy_id_map
        next_order := st.next_order + 1
        policies_without_conditions :=
          if p.conditions = [] then
            insert st.next_order st.policies_without_conditions
          else st.policies_without_conditions
        indexes := update_indexes st.indexes p.conditions st.next_order }

/-- `_evaluate_policy_conditions`: every condition must hold on the
connection by strict equality (the loop returns `False` on the first
mismatch, which is exactly `List.all`). -/
def evaluate_policy_conditions (p : Policy) (c : Connection) : Bool :=
  p.conditions.all fun cond => getField c cond.field == cond.value

/-- The candidate sets collected by `get_matching_policy`: the
condition-free set if nonempty, then, for each indexed field in the
dictionary's insertion order, the orders indexed under the connection's
value for that field, skipped when absent or empty (`if matches:`). -/
def candidate_sets (st : PMState) (c : Connection) : List (Finset Nat) :=
  (if st.policies_without_conditions.Nonempty then
      [st.policies_without_conditions]
    else []) ++
  ([ConnectionField.destination_port, ConnectionField.source_ip,
    ConnectionField.destination_ip, ConnectionField.protocol].filterMap
    fun f =>
      let found := st.indexes f (getField c f)
      if found.Nonempty then some found else none)

/-- Failure mode of `get_matching_policy`: `self._policies[order]` raising
`IndexError`. -/
inductive PMError
  | indexError
deriving DecidableEq, Repr

/-- Python's `sorted(...)` on a set of orders: the ascending enumeration of
the `Finset`, via insertion sort (which evaluates by kernel reduction). -/
def sorted_orders (s : Finset Nat) : List Nat :=
  Quot.liftOn s.val (fun l => l.insertionSort (· ≤ ·)) fun _ _ h =>
    List.eq_of_perm_of_sorted
      (((List.perm_insertionSort _ _).trans h).trans
        (List.perm_insertionSort _ _).symm)
      (List.sorted_insertionSort _ _) (List.sorted_insertionSort _ _)

/-- The `for order in sorted(common_orders)` loop body of
`get_matching_policy`: look the order up in the policy list (an out-of-range
order raises `IndexError`) and return the first policy whose conditions all
hold. -/
def first_matching (st : PMState) (c : Connection) :
    List Nat → Except PMError (Option Policy)
  | [] => .ok none
  | i :: rest =>
    match st.policies[i]? with
    | none => .error .indexError
    | some p =>
      if evaluate_policy_conditions p c then .ok (some p)
      else first_matching st c rest

/-- `PolicyManager.get_matching_policy`: union the candidate sets, walk the
orders in ascending order, return the first fully matching policy, or
`none`.  When no candidate set was collected the union is skipped
(`if candidate_sets:`) and `none` is returned directly. -/
def get_matching_policy (st : PMState) (c : Connection) :
    Except PMError (Option Policy) :=
  let sets := candidate_sets st c
  if sets = [] then .ok none
  else
    let common_orders := sets.foldl (· ∪ ·) ∅
    first_matching st c (sorted_orders common_orders)

/-- `PolicyManager.clear_policies`: resets the policy list, the id map, the
indexes and the order counter.  Faithful to the source, it does NOT reset
`_policies_without_conditions`. -/
def clear_policies (st : PMState) : PMState where
  policies := []
  policy_id_map := []
  next_order := 0
  policies_without_conditions := st.policies_without_conditions
  indexes := fun _ _ => ∅

/-- An `add_policy` call whose failure is caught and discarded: the Python
object keeps its previous state when `add_policy` raises. -/
def try_add (st : PMState) (p : Policy) : PMState :=
  match add_policy st p with
  | .ok st' => st'
  | .error _ => st

/-- A sequence of `add_policy` calls that must all succeed. -/
def add_all : List Policy → PMState → Except String PMState
  | [], st => .ok st
  | p :: ps, st =>
    match add_policy st p with
    | .ok st' => add_all ps st'
    | .error e => .error e

/-- The manager states reachable from a fresh manager by any sequence of
`add_policy` calls (successful or failing) and `get_matching_policy` calls
(which do not mutate state), with no `clear_policies`. -/
def reachable_no_clear (st : PMState) : Prop :=
  ∃ ps : List Policy, st = ps.foldl try_add PMState.init

/-! ## DecisionEngine (`src/services/decision_engine.py`) -/

/-- An analyzed connection (`AnalyzedConnection` in `src/core/models.py`):
all connection fields plus score, decision, and the matched policy id. -/
structure AnalyzedConnection where
  connection_id : String
  source_ip : String
  destination_ip : String
  destination_port : Int
  protocol : String
  timestamp : Int
  anomaly_score : ℚ
  decision : Decision
  policy_id : Option String
deriving DecidableEq, Repr

/-- The state of a `DecisionEngine`: the per-connection result store and the
fingerprint → score cache. -/
structure DEState where
  connection_by_id : List (String × AnalyzedConnection)
  cache_key_to_anomaly_score : List (String × ℚ)

/-- A fresh `DecisionEngine` (`DecisionEngine.__init__`). -/
def DEState.init : DEState where
  connection_by_id := []
  cache_key_to_anomaly_score := []

/-- `DecisionEngine._make_cache_key`: the fingerprint string
`"{source_ip}-{destination_ip}-{destination_port}-{protocol}"`.  The SHA-256
hex digest applied to it in the source is a deterministic function of this
string and is modelled by the string itself. -/
def make_cache_key (conn : Connection) : String :=
  conn.source_ip ++ "-" ++ conn.destination_ip ++ "-" ++
    toString conn.destination_port ++ "-" ++ conn.protocol

/-- An error surfaced by `evaluate_connection`: either the AI client's
error, or the policy manager's `IndexError`. -/
inductive EngineError
  | aiError (msg : String)
  | pmError (e : PMError)
deriving DecidableEq, Repr

/-- `DecisionEngine.evaluate_connection`.  `ai` is the
`AIServiceClient.get_anomaly_score` oracle.  The score is taken from the
cache when the fingerprint is present, otherwise obtained from the oracle
(whose error propagates before anything is stored) and cached; the policy
manager is then queried (its `IndexError` propagates), the verdict is
resolved, and the analyzed record is stored under the connection id. -/
def evaluate_connection (ai : Connection → Except String ℚ) (pm : PMState)
    (st : DEState) (conn : Connection) :
    Except EngineError (DEState × AnalyzedConnection) :=
  let cache_key := make_cache_key conn
  let scored : Except EngineError (ℚ × DEState) :=
    match st.cache_key_to_anomaly_score.lookup cache_key with
    | some s => .ok (s, st)
    | none =>
      match ai conn with
      | .error e => .error (.aiError e)
      | .ok s =>
        .ok (s, { st with
          cache_key_to_anomaly_score :=
            (cache_key, s) :: st.cache_key_to_anomaly_score })
  match scored with
  | .error e => .error e
  | .ok (anomaly_score, st1) =>
    match get_matching_policy pm conn with
    | .error e => .error (.pmError e)
    | .ok matched_policy =>
      let verdict : Decision × Option String :=
        match matched_policy with
        | some p =>
          if anomaly_score > mkRat 8 10 ∧ ¬(p.action = .block ∨ p.action = .alert)
          then (.alert, some p.policy_id)
          else (p.action.toDecision, some p.policy_id)
        | none =>
          if anomaly_score > mkRat 8 10 then (.alert, none) else (.drop, none)
      let analyzed : AnalyzedConnection :=
        { connection_id := conn.connection_id
          source_ip := conn.source_ip
          destination_ip := conn.destination_ip
          destination_port := conn.destination_port
          protocol := conn.protocol
          timestamp := conn.timestamp
          anomaly_score := anomaly_score
          decision := verdict.1
          policy_id := verdict.2 }
      .ok ({ st1 with
              connection_by_id :=
                (conn.connection_id, analyzed) :: st1.connection_by_id },
            analyzed)

/-- `DecisionEngine.get_connection`: dictionary lookup of a stored result. -/
def get_connection (st : DEState) (connection_id : String) :
    Option AnalyzedConnection :=
  st.connection_by_id.lookup connection_id

/-! ## AIServiceClient (`src/services/ai_service_client.py`)

The batching client is asynchronous; its data path is modelled as pure
functions.  A waiter (`asyncio.Future`) is `pending` until a score or an
error is delivered to it; `pending` is exactly `not future.done()`. -/

/-- The observable state of a waiter future. -/
inductive FutureState
  | pending
  | result (score : ℚ)
  | failed (msg : String)
deriving DecidableEq, Repr

/-- The collection loop of `_collect_batch`.  `pulls` is the sequence of
outcomes of awaiting the pending queue: `some item` when an item arrives
within the timeout, `none` when `asyncio.wait_for` times out (which breaks
the loop).  The loop also stops once `max_batch_size` items are collected. -/
def collect_batch {α : Type} : Nat → List (Option α) → List α
  | 0, _ => []
  | _ + 1, [] => []
  | _ + 1, none :: _ => []
  | n + 1, some a :: rest => a :: collect_batch n rest

/-- The inner drain loop of `_handle_shutdown`: pop items with
`get_nowait` while the queue is nonempty and the batch is below
`max_batch_size`; returns the batch and the remaining queue. -/
def drain_batch {α : Type} : Nat → List α → List α × List α
  | 0, q => ([], q)
  | _ + 1, [] => ([], [])
  | n + 1, a :: q =>
    let rest := drain_batch n q
    (a :: rest.1, rest.2)

/-- The success branch of `_send_batch_to_ai`: score at index `i` is set on
future `i` when `i` is in range and the future is not yet done. -/
def set_results (scores : List ℚ) (futures : List FutureState) :
    List FutureState :=
  futures.mapIdx fun i f =>
    match scores[i]? with
    | some s => if f = .pending then .result s else f
    | none => f

/-- The failure branch of `_send_batch_to_ai`: the scorer's error is set on
every future not yet done. -/
def fail_all (e : String) (futures : List FutureState) : List FutureState :=
  futures.map fun f => if f = .pending then .failed e else f

/-- `_send_batch_to_ai`: returns immediately on an empty batch (the scorer
is never invoked); otherwise calls the scorer once and distributes the
scores positionally, or the error to every waiter.  The rate-limit sleep
and timestamps do not affect delivered results and are omitted. -/
def send_batch_to_ai (scorer : List Connection → Except String (List ℚ))
    (conns : List Connection) (futures : List FutureState) :
    List FutureState :=
  if conns = [] then futures
  else
    match scorer conns with
    | .ok scores => set_results scores futures
    | .error e => fail_all e futures

/-! ## Specification-side definitions

These restate, in the spec's own words, the contracts the code-side
definitions above are compared against. -/

/-- Spec: a policy matches iff every condition `ci` satisfies
`connection[ci.field] == ci.value`; empty conditions match everything. -/
def matches_spec (p : Policy) (c : Connection) : Bool :=
  p.conditions.all fun cond => getField c cond.field == cond.value

/-- Spec: the first (lowest `insertion_order`) stored policy that matches,
or null. -/
def first_match_spec (ps : List Policy) (c : Connection) : Option Policy :=
  ps.find? (fun p => matches_spec p c)

/-- Spec: the verdict-resolution table of §4.3, as a function of the
matched policy (possibly null) and the anomaly score `S`, with its strict
`> 0.8` threshold. -/
def verdict_spec (matched : Option Policy) (S : ℚ) :
    Decision × Option String :=
  match matched with
  | none => if S > mkRat 8 10 then (.alert, none) else (.drop, none)
  | some p =>
    match p.action with
    | .block => (.block, some p.policy_id)
    | .alert => (.alert, some p.policy_id)
    | .allow =>
      if S > mkRat 8 10 then (.alert, some p.policy_id)
      else (.allow, some p.policy_id)

/-! ## The policy-manager invariant and its preservation -/

theorem mem_index_insert (idx : ConnectionField → FieldValue → Finset Nat)
    (cond : PolicyCondition) (order : Nat) (f : ConnectionField)
    (v : FieldValue) (i : Nat) :
    i ∈ index_insert idx cond order f v ↔
      i ∈ idx f v ∨ (i = order ∧ cond.field = f ∧ cond.value = v) := by
  unfold index_insert
  by_cases h : f = cond.field ∧ v = cond.value
  · obtain ⟨h1, h2⟩ := h
    simp [h1, h2, Finset.mem_insert]
    tauto
  · simp only [if_neg h]
    constructor
    · exact Or.inl
    · rintro (hi | ⟨rfl, hf, hv⟩)
      · exact hi
      · exact absurd ⟨hf.symm, hv.symm⟩ h

theorem mem_update_indexes (conds : List PolicyCondition)
    (idx : ConnectionField → FieldValue → Finset Nat) (order : Nat)
    (f : ConnectionField) (v : FieldValue) (i : Nat) :
    i ∈ update_indexes idx conds order f v ↔
      i ∈ idx f v ∨
        (i = order ∧ ∃ cond ∈ conds, cond.field = f ∧ cond.value = v) := by
  induction conds generalizing idx with
  | nil => simp [update_indexes]
  | cons cond rest ih =>
    show i ∈ update_indexes (index_insert idx cond order) rest order f v ↔ _
    rw [ih, mem_index_insert]
    simp only [List.mem_cons]
    constructor
    · rintro ((hi | ⟨rfl, hf, hv⟩) | ⟨rfl, c, hc, hf, hv⟩)
      · exact Or.inl hi
      · exact Or.inr ⟨rfl, cond, Or.inl rfl, hf, hv⟩
      · exact Or.inr ⟨rfl, c, Or.inr hc, hf, hv⟩
    · rintro (hi | ⟨rfl, c, (rfl | hc), hf, hv⟩)
      · exact Or.inl (Or.inl hi)
      · exact Or.inl (Or.inr ⟨rfl, hf, hv⟩)
      · exact Or.inr ⟨rfl, c, hc, hf, hv⟩

theorem mem_foldl_union (sets : List (Finset Nat)) (acc : Finset Nat)
    (i : Nat) :
    i ∈ sets.foldl (· ∪ ·) acc ↔ i ∈ acc ∨ ∃ s ∈ sets, i ∈ s := by
  induction sets generalizing acc with
  | nil => simp
  | cons s rest ih =>
    simp only [List.foldl_cons, ih, Finset.mem_union, List.mem_cons]
    constructor
    · rintro ((hi | hi) | ⟨t, ht, hi⟩)
      · exact Or.inl hi
      · exact Or.inr ⟨s, Or.inl rfl, hi⟩
      · exact Or.inr ⟨t, Or.inr ht, hi⟩
    · rintro (hi | ⟨t, (rfl | ht), hi⟩)
      · exact Or.inl (Or.inl hi)
      · exact Or.inl (Or.inr hi)
      · exact Or.inr ⟨t, ht, hi⟩

theorem connectionField_mem_enum (f : ConnectionField) :
    f ∈ [ConnectionField.destination_port, ConnectionField.source_ip,
      ConnectionField.destination_ip, ConnectionField.protocol] := by
  cases f <;> simp

theorem mem_candidate_sets (st : PMState) (c : Connection) (i : Nat) :
    (∃ s ∈ candidate_sets st c, i ∈ s) ↔
      i ∈ st.policies_without_conditions ∨
        ∃ f, i ∈ st.indexes f (getField c f) := by
  unfold candidate_sets
  constructor
  · rintro ⟨s, hs, hi⟩
    rcases List.mem_append.mp hs with h | h
    · by_cases hne : st.policies_without_conditions.Nonempty
      · rw [if_pos hne] at h
        simp only [List.mem_singleton] at h
        exact Or.inl (h ▸ hi)
      · rw [if_neg hne] at h
        exact absurd h (List.not_mem_nil s)
    · obtain ⟨f, _, hf⟩ := List.mem_filterMap.mp h
      simp only at hf
      split at hf
      · exact Or.inr ⟨f, (Option.some_inj.mp hf) ▸ hi⟩
      · exact absurd hf (by simp)
  · rintro (hi | ⟨f, hi⟩)
    · refine ⟨st.policies_without_conditions, List.mem_append.mpr (Or.inl ?_), hi⟩
      rw [if_pos ⟨i, hi⟩]
      simp
    · refine ⟨st.indexes f (getField c f), List.mem_append.mpr (Or.inr ?_), hi⟩
      refine List.mem_filterMap.mpr ⟨f, connectionField_mem_enum f, ?_⟩
      simp only
      rw [if_pos ⟨i, hi⟩]

/-- The well-formedness invariant of a `PolicyManager` state:
* the order counter equals the number of stored policies;
* the condition-free set is exactly the set of orders of condition-free
  stored policies;
* the indexes contain exactly the orders of stored policies having a
  condition on the given field with the given value;
* the id map registers exactly the stored ids, which are pairwise distinct.
-/
structure WF (st : PMState) : Prop where
  order_eq : st.next_order = st.policies.length
  uncond_sub : ∀ i ∈ st.policies_without_conditions,
    ∃ p, st.policies[i]? = some p ∧ p.conditions = []
  uncond_mem : ∀ i p, st.policies[i]? = some p → p.conditions = [] →
    i ∈ st.policies_without_conditions
  idx_sub : ∀ f v i, i ∈ st.indexes f v →
    ∃ p, st.policies[i]? = some p ∧
      ∃ cond ∈ p.conditions, cond.field = f ∧ cond.value = v
  idx_mem : ∀ i p cond, st.policies[i]? = some p → cond ∈ p.conditions →
    i ∈ st.indexes cond.field cond.value
  map_iff : ∀ pid, (st.policy_id_map.lookup pid).isSome ↔
    ∃ p ∈ st.policies, p.policy_id = pid
  ids_nodup : (st.policies.map Policy.policy_id).Nodup

theorem wf_init : WF PMState.init := by
  constructor <;> simp [PMState.init]

theorem wf_add_policy {st st' : PMState} {p : Policy} (h : WF st)
    (hok : add_policy st p = .ok st') : WF st' := by
  unfold add_policy at hok
  split at hok
  · exact absurd hok (by simp)
  case isFalse hguard =>
  have hp_new : ¬∃ q ∈ st.policies, q.policy_id = p.policy_id := by
    intro hex
    exact hguard ((h.map_iff p.policy_id).mpr hex)
  cases hok
  have hlen := h.order_eq
  constructor
  · simp [hlen]
  · intro i hi
    simp only at hi
    have hcases : i ∈ st.policies_without_conditions ∨
        (p.conditions = [] ∧ i = st.next_order) := by
      split at hi
      · rcases Finset.mem_insert.mp hi with rfl | hi
        · exact Or.inr ⟨by assumption, rfl⟩
        · exact Or.inl hi
      · exact Or.inl hi
    rcases hcases with hi | ⟨hconds, rfl⟩
    · obtain ⟨q, hq, hqc⟩ := h.uncond_sub i hi
      have hilt : i < st.policies.length := (List.getElem?_eq_some.mp hq).1
      exact ⟨q, by rw [List.getElem?_append_left hilt]; exact hq, hqc⟩
    · exact ⟨p, by rw [hlen]; exact List.getElem?_concat_length _ _, hconds⟩
  · intro i q hq hqc
    simp only
    have hbound : i < st.policies.length + 1 := by
      have := (List.getElem?_eq_some.mp hq).1
      simpa using this
    rcases Nat.lt_or_ge i st.policies.length with hilt | hge
    · rw [List.getElem?_append_left hilt] at hq
      have := h.uncond_mem i q hq hqc
      split
      · exact Finset.mem_insert_of_mem this
      · exact this
    · have hieq : i = st.policies.length := Nat.le_antisymm
        (Nat.lt_succ_iff.mp hbound) hge
      subst hieq
      rw [List.getElem?_concat_length] at hq
      cases hq
      split
      · rw [hlen]
        exact Finset.mem_insert_self _ _
      case isFalse hne => exact absurd hqc hne
  · intro f v i hi
    simp only at hi
    rcases (mem_update_indexes _ _ _ _ _ _).mp hi with hi | ⟨rfl, cond, hc, hf, hv⟩
    · obtain ⟨q, hq, hcond⟩ := h.idx_sub f v i hi
      have hilt : i < st.policies.length := (List.getElem?_eq_some.mp hq).1
      exact ⟨q, by rw [List.getElem?_append_left hilt]; exact hq, hcond⟩
    · exact ⟨p, by rw [hlen]; exact List.getElem?_concat_length _ _,
        cond, hc, hf, hv⟩
  · intro i q cond hq hc
    simp only
    have hbound : i < st.policies.length + 1 := by
      have := (List.getElem?_eq_some.mp hq).1
      simpa using this
    rcases Nat.lt_or_ge i st.policies.length with hilt | hge
    · rw [List.getElem?_append_left hilt] at hq
      exact (mem_update_indexes _ _ _ _ _ _).mpr
        (Or.inl (h.idx_mem i q cond hq hc))
    · have hieq : i = st.policies.length := Nat.le_antisymm
        (Nat.lt_succ_iff.mp hbound) hge
      subst hieq
      rw [List.getElem?_concat_length] at hq
      cases hq
      exact (mem_update_indexes _ _ _ _ _ _).mpr
        (Or.inr ⟨hlen.symm, cond, hc, rfl, rfl⟩)
  · intro pid
    simp only [List.lookup]
    by_cases hpid : p.policy_id = pid
    · subst hpid
      simp only [beq_self_eq_true, Option.isSome_some, true_iff]
      exact ⟨p, by simp, rfl⟩
    · have hbeq : (pid == p.policy_id) = false := by
        simp [beq_eq_false_iff_ne]
        intro hcontra
        exact hpid hcontra.symm
      rw [hbeq]
      rw [h.map_iff pid]
      constructor
      · rintro ⟨q, hq, rfl⟩
        exact ⟨q, List.mem_append.mpr (Or.inl hq), rfl⟩
      · rintro ⟨q, hq, rfl⟩
        rcases List.mem_append.mp hq with hq | hq
        · exact ⟨q, hq, rfl⟩
        · simp only [List.mem_singleton] at hq
          subst hq
          exact absurd rfl hpid
  · simp only [List.map_append, List.map_cons, List.map_nil]
    rw [List.nodup_append]
    refine ⟨h.ids_nodup, List.nodup_singleton _, ?_⟩
    intro x hx hx'
    simp only [List.mem_singleton] at hx'
    subst hx'
    obtain ⟨q, hq, hqid⟩ := List.mem_map.mp hx
    exact hp_new ⟨q, hq, hqid⟩

theorem wf_try_add {st : PMState} (h : WF st) (p : Policy) :
    WF (try_add st p) := by
  unfold try_add
  cases hadd : add_policy st p with
  | ok st' => exact wf_add_policy h hadd
  | error e => exact h

theorem wf_foldl_try_add (ps : List Policy) {st : PMState} (h : WF st) :
    WF (ps.foldl try_add st) := by
  induction ps generalizing st with
  | nil => exact h
  | cons p rest ih => exact ih (wf_try_add h p)

theorem wf_reachable {st : PMState} (h : reachable_no_clear st) : WF st := by
  obtain ⟨ps, rfl⟩ := h
  exact wf_foldl_try_add ps wf_init

theorem wf_add_all {ps : List Policy} {st st' : PMState} (h : WF st)
    (hok : add_all ps st = .ok st') : WF st' := by
  induction ps generalizing st with
  | nil => cases hok; exact h
  | cons p rest ih =>
    unfold add_all at hok
    cases hadd : add_policy st p with
    | ok st1 =>
      rw [hadd] at hok
      exact ih (wf_add_policy h hadd) hok
    | error e => rw [hadd] at hok; exact absurd hok (by simp)

/-! ## `get_matching_policy` returns the first matching policy -/

theorem find?_eq_some_of_min {α : Type} (ps : List α) (q : α → Bool) :
    ∀ (j : Nat) (p : α), ps[j]? = some p → q p = true →
      (∀ k, k < j → ∀ r, ps[k]? = some r → q r = false) →
      ps.find? q = some p := by
  induction ps with
  | nil => intro j p hj; simp at hj
  | cons a tl ih =>
    intro j p hj hq hmin
    cases j with
    | zero =>
      simp only [List.getElem?_cons_zero, Option.some_inj] at hj
      subst hj
      simp [List.find?, hq]
    | succ j =>
      have ha : q a = false := hmin 0 (Nat.succ_pos j) a (by simp)
      simp only [List.getElem?_cons_succ] at hj
      simp only [List.find?, ha]
      exact ih j p hj hq fun k hk r hr =>
        hmin (k + 1) (Nat.succ_lt_succ hk) r (by simpa using hr)

theorem find?_eq_none_of_no_match {α : Type} (ps : List α) (q : α → Bool)
    (h : ∀ (k : Nat) (r : α), ps[k]? = some r → q r = false) :
    ps.find? q = none := by
  rw [List.find?_eq_none]
  intro x hx
  obtain ⟨k, hk⟩ := List.mem_iff_getElem?.mp hx
  simp [h k x hk]

theorem sorted_orders_sorted (s : Finset Nat) :
    (sorted_orders s).Sorted (· ≤ ·) := by
  rcases s with ⟨m, hm⟩
  revert hm
  refine Quot.inductionOn m fun l _ => ?_
  exact List.sorted_insertionSort _ l

theorem mem_sorted_orders (s : Finset Nat) (i : Nat) :
    i ∈ sorted_orders s ↔ i ∈ s := by
  rcases s with ⟨m, hm⟩
  revert hm
  refine Quot.inductionOn m fun l _ => ?_
  show i ∈ l.insertionSort (· ≤ ·) ↔ _
  rw [List.mem_insertionSort]
  exact Iff.rfl

theorem first_matching_eq_find (st : PMState) (c : Connection) :
    ∀ l : List Nat, l.Sorted (· ≤ ·) →
      (∀ i ∈ l, ∃ p, st.policies[i]? = some p) →
      (∀ j p, st.policies[j]? = some p →
        evaluate_policy_conditions p c = true → j ∈ l) →
      first_matching st c l =
        .ok (st.policies.find? fun p => evaluate_policy_conditions p c) := by
  intro l
  induction l with
  | nil =>
    intro _ _ hcompl
    rw [find?_eq_none_of_no_match]
    · rfl
    · intro k r hk
      by_contra hq
      exact absurd (hcompl k r hk (by simpa using hq)) (List.not_mem_nil k)
  | cons i rest ih =>
    intro hsorted hvalid hcompl
    obtain ⟨hle, hsorted'⟩ := List.sorted_cons.mp hsorted
    obtain ⟨p, hp⟩ := hvalid i (List.mem_cons_self i rest)
    show (match st.policies[i]? with
      | none => Except.error PMError.indexError
      | some p =>
        if evaluate_policy_conditions p c then Except.ok (some p)
        else first_matching st c rest) = _
    rw [hp]
    show (if evaluate_policy_conditions p c = true then Except.ok (some p)
      else first_matching st c rest) = _
    by_cases he : evaluate_policy_conditions p c = true
    · rw [if_pos he]
      rw [find?_eq_some_of_min st.policies _ i p hp he]
      intro k hk r hr
      by_contra hq
      have hmem := hcompl k r hr (by simpa using hq)
      rcases List.mem_cons.mp hmem with rfl | hmem
      · exact absurd hk (lt_irrefl k)
      · exact absurd hk (not_lt.mpr (hle k hmem))
    · rw [if_neg he]
      refine ih hsorted' (fun j hj => hvalid j (List.mem_cons_of_mem i hj))
        fun j q hj hq => ?_
      rcases List.mem_cons.mp (hcompl j q hj hq) with rfl | hmem
      · rw [hp] at hj
        cases hj
        exact absurd hq he
      · exact hmem

/-- Completeness of the candidate filter: every stored policy that fully
matches the connection appears in one of the collected candidate sets. -/
theorem match_mem_candidates {st : PMState} (h : WF st) (c : Connection)
    {j : Nat} {p : Policy} (hj : st.policies[j]? = some p)
    (hq : evaluate_policy_conditions p c = true) :
    ∃ s ∈ candidate_sets st c, j ∈ s := by
  rw [mem_candidate_sets]
  cases hconds : p.conditions with
  | nil => exact Or.inl (h.uncond_mem j p hj hconds)
  | cons cond cs =>
    have hcond_holds : (getField c cond.field == cond.value) = true := by
      unfold evaluate_policy_conditions at hq
      rw [List.all_eq_true] at hq
      exact hq cond (by rw [hconds]; exact List.mem_cons_self _ _)
    have hveq : getField c cond.field = cond.value := by
      simpa using hcond_holds
    have hmem := h.idx_mem j p cond hj
      (by rw [hconds]; exact List.mem_cons_self _ _)
    rw [← hveq] at hmem
    exact Or.inr ⟨cond.field, hmem⟩

/-- On any well-formed manager state, `get_matching_policy` returns exactly
the first (lowest insertion order) stored policy that matches, without
failing. -/
theorem get_matching_policy_wf {st : PMState} (h : WF st) (c : Connection) :
    get_matching_policy st c = .ok (first_match_spec st.policies c) := by
  have hspec : first_match_spec st.policies c =
      st.policies.find? fun p => evaluate_policy_conditions p c := rfl
  unfold get_matching_policy
  by_cases hsets : candidate_sets st c = []
  · rw [if_pos hsets, hspec, find?_eq_none_of_no_match]
    intro k r hk
    by_contra hq
    obtain ⟨s, hs, _⟩ := match_mem_candidates h c hk (by simpa using hq)
    rw [hsets] at hs
    exact List.not_mem_nil s hs
  · rw [if_neg hsets, hspec]
    refine first_matching_eq_find st c _ (sorted_orders_sorted _) ?_ ?_
    · intro i hi
      rw [mem_sorted_orders] at hi
      rcases (mem_foldl_union _ _ _).mp hi with hi | ⟨s, hs, hi⟩
      · exact absurd hi (Finset.not_mem_empty i)
      · rcases (mem_candidate_sets st c i).mp ⟨s, hs, hi⟩ with hi | ⟨f, hi⟩
        · obtain ⟨p, hp, _⟩ := h.uncond_sub i hi
          exact ⟨p, hp⟩
        · obtain ⟨p, hp, _⟩ := h.idx_sub f (getField c f) i hi
          exact ⟨p, hp⟩
    · intro j p hj hq
      rw [mem_sorted_orders]
      exact (mem_foldl_union _ _ _).mpr
        (Or.inr (match_mem_candidates h c hj hq))

/-! ## Helper lemmas: field-projection congruence, batch delivery, sizes -/

theorem evaluate_policy_conditions_congr {c1 c2 : Connection}
    (h : ∀ f, getField c1 f = getField c2 f) (p : Policy) :
    evaluate_policy_conditions p c1 = evaluate_policy_conditions p c2 := by
  unfold evaluate_policy_conditions
  have hfun : (fun cond : PolicyCondition => getField c1 cond.field == cond.value)
      = fun cond : PolicyCondition => getField c2 cond.field == cond.value :=
    funext fun cond => by rw [h]
  rw [hfun]

theorem candidate_sets_congr {c1 c2 : Connection}
    (h : ∀ f, getField c1 f = getField c2 f) (st : PMState) :
    candidate_sets st c1 = candidate_sets st c2 := by
  unfold candidate_sets
  have hfun : (fun f : ConnectionField =>
        let found := st.indexes f (getField c1 f)
        if found.Nonempty then some found else none)
      = fun f : ConnectionField =>
        let found := st.indexes f (getField c2 f)
        if found.Nonempty then some found else none :=
    funext fun f => by rw [h]
  rw [hfun]

theorem first_matching_congr {c1 c2 : Connection}
    (h : ∀ f, getField c1 f = getField c2 f) (st : PMState) :
    ∀ l : List Nat, first_matching st c1 l = first_matching st c2 l := by
  intro l
  induction l with
  | nil => rfl
  | cons i rest ih =>
    show (match st.policies[i]? with
      | none => Except.error PMError.indexError
      | some p =>
        if evaluate_policy_conditions p c1 then Except.ok (some p)
        else first_matching st c1 rest)
      = (match st.policies[i]? with
      | none => Except.error PMError.indexError
      | some p =>
        if evaluate_policy_conditions p c2 then Except.ok (some p)
        else first_matching st c2 rest)
    cases st.policies[i]? with
    | none => rfl
    | some p =>
      simp only
      rw [evaluate_policy_conditions_congr h p, ih]

theorem get_matching_policy_congr {c1 c2 : Connection}
    (h : ∀ f, getField c1 f = getField c2 f) (st : PMState) :
    get_matching_policy st c1 = get_matching_policy st c2 := by
  unfold get_matching_policy
  rw [candidate_sets_congr h st]
  by_cases hsets : candidate_sets st c2 = []
  · rw [if_pos hsets, if_pos hsets]
  · rw [if_neg hsets, if_neg hsets, first_matching_congr h]

theorem set_results_replicate (scores : List ℚ) (n : Nat)
    (hn : scores.length = n) :
    set_results scores (List.replicate n FutureState.pending)
      = scores.map FutureState.result := by
  apply List.ext_getElem?
  intro i
  rw [set_results, List.getElem?_mapIdx, List.getElem?_map,
    List.getElem?_replicate]
  by_cases hi : i < n
  · rw [if_pos hi]
    have hlt : i < scores.length := by rw [hn]; exact hi
    rw [List.getElem?_eq_getElem hlt]
    simp
  · rw [if_neg hi]
    have hnone : scores[i]? = none := List.getElem?_eq_none (by rw [hn]; omega)
    rw [hnone]
    simp

theorem fail_all_replicate (e : String) (n : Nat) :
    fail_all e (List.replicate n FutureState.pending)
      = List.replicate n (FutureState.failed e) := by
  rw [fail_all, List.map_replicate]
  simp

theorem collect_batch_length {α : Type} :
    ∀ (n : Nat) (pulls : List (Option α)),
      (collect_batch n pulls).length ≤ n := by
  intro n
  induction n with
  | zero => intro pulls; rw [collect_batch]; exact Nat.le_refl 0
  | succ m ih =>
    intro pulls
    match pulls with
    | [] => rw [collect_batch]; exact Nat.zero_le _
    | none :: rest => rw [collect_batch]; exact Nat.zero_le _
    | some a :: rest =>
      rw [collect_batch]
      simpa using Nat.succ_le_succ (ih rest)

theorem drain_batch_length {α : Type} :
    ∀ (n : Nat) (queue : List α), (drain_batch n queue).1.length ≤ n := by
  intro n
  induction n with
  | zero => intro queue; rw [drain_batch]; exact Nat.le_refl 0
  | succ m ih =>
    intro queue
    match queue with
    | [] => rw [drain_batch]; exact Nat.zero_le _
    | a :: q =>
      rw [drain_batch]
      simpa using Nat.succ_le_succ (ih q)

/-! ## Concrete fixtures used by witnesses and counterexamples -/

/-- A sample connection: `1.1.1.1 → 8.8.8.8:80 TCP`. -/
def conn_a : Connection where
  connection_id := "a1"
  source_ip := "1.1.1.1"
  destination_ip := "8.8.8.8"
  destination_port := 80
  protocol := "TCP"
  timestamp := 0

/-- The same flow as `conn_a` with a different connection id and
timestamp. -/
def conn_b : Connection where
  connection_id := "b2"
  source_ip := "1.1.1.1"
  destination_ip := "8.8.8.8"
  destination_port := 80
  protocol := "TCP"
  timestamp := 99

/-- A policy allowing destination port 80. -/
def policy_allow_80 : Policy where
  policy_id := "allow-80"
  conditions := [{ field := .destination_port, value := .int 80 }]
  action := .allow

/-- A second policy on destination port 80, blocking. -/
def policy_block_80 : Policy where
  policy_id := "block-80"
  conditions := [{ field := .destination_port, value := .int 80 }]
  action := .block

/-- A policy with no conditions. -/
def policy_uncond : Policy where
  policy_id := "match-all"
  conditions := []
  action := .allow

/-- A second policy with no conditions, for the C10 counterexample. -/
def policy_uncond2 : Policy where
  policy_id := "match-all-2"
  conditions := []
  action := .block

/-- A policy whose protocol condition value is written in lowercase. -/
def policy_tcp_lower : Policy where
  policy_id := "tcp-low"
  conditions := [{ field := .protocol, value := .str "tcp" }]
  action := .allow

/-! ## Claims -/

/-- C1: for every connection evaluation, with `S` the anomaly score and
`mp` the matched policy, the verdict is resolved exactly by the table of
§4.3 (`verdict_spec`): null policy gives `drop`/`alert` by the strict
`S > 0.8` test with null policy id; an explicit `block` or `alert` is never
overridden; an `allow` match is elevated to `alert` exactly when `S > 0.8`,
keeping the policy id.  The equality with `verdict_spec` holds for every
rational `S`, in particular `S = 0.8` does not trigger the override. -/
theorem C1_verdict_resolution (ai : Connection → Except String ℚ)
    (pm : PMState) (st : DEState) (conn : Connection) (S : ℚ)
    (mp : Option Policy)
    (hmiss : st.cache_key_to_anomaly_score.lookup (make_cache_key conn)
      = none)
    (hai : ai conn = .ok S)
    (hmp : get_matching_policy pm conn = .ok mp) :
    ∃ st' analyzed,
      evaluate_connection ai pm st conn = .ok (st', analyzed) ∧
      analyzed.anomaly_score = S ∧
      (analyzed.decision, analyzed.policy_id) = verdict_spec mp S := by
  simp only [evaluate_connection, hmiss, hai, hmp]
  refine ⟨_, _, rfl, rfl, ?_⟩
  cases mp with
  | none =>
    by_cases hS : S > mkRat 8 10 <;> simp [verdict_spec, hS]
  | some p =>
    cases hact : p.action <;> by_cases hS : S > mkRat 8 10 <;>
      simp [verdict_spec, hact, hS, Action.toDecision]

theorem C1_verdict_resolution_witness :
    ∃ st' analyzed,
      evaluate_connection (fun _ => .ok (mkRat 95 100))
        (try_add PMState.init policy_allow_80) DEState.init conn_a
        = .ok (st', analyzed) ∧
      analyzed.anomaly_score = mkRat 95 100 ∧
      (analyzed.decision, analyzed.policy_id)
        = verdict_spec (some policy_allow_80) (mkRat 95 100) :=
  C1_verdict_resolution _ _ _ _ _ _ rfl rfl rfl

/-- C2: after any sequence of successful `add_policy` calls,
`get_matching_policy` returns exactly the stored policy with the lowest
insertion order among those that match (`List.find?` over the
insertion-ordered list), or null if none matches; matching is the
conjunctive per-condition equality of `matches_spec`, under which a
condition-free policy matches every connection. -/
theorem C2_first_matching_policy (ps : List Policy) (st : PMState)
    (c : Connection) (h : add_all ps PMState.init = .ok st) :
    get_matching_policy st c = .ok (first_match_spec st.policies c) :=
  get_matching_policy_wf (wf_add_all wf_init h) c

theorem C2_first_matching_policy_witness :
    add_all [policy_allow_80, policy_block_80] PMState.init
        = .ok (try_add (try_add PMState.init policy_allow_80)
          policy_block_80) ∧
    get_matching_policy (try_add (try_add PMState.init policy_allow_80)
        policy_block_80) conn_a
      = .ok (first_match_spec (try_add (try_add PMState.init
          policy_allow_80) policy_block_80).policies conn_a) ∧
    first_match_spec (try_add (try_add PMState.init policy_allow_80)
        policy_block_80).policies conn_a = some policy_allow_80 :=
  ⟨rfl, C2_first_matching_policy [policy_allow_80, policy_block_80] _ conn_a
    rfl, rfl⟩

/-- C3: the claim that `clear_policies` resets the entire manager state is
right and the code is wrong: `clear_policies` does not reset
`_policies_without_conditions`, so after adding a condition-free policy and
clearing, the stale order still reaches the candidate loop and
`self._policies[order]` raises `IndexError` on the now-empty list — while a
freshly constructed manager returns null on the same connection.  This
theorem evaluates the model at that failing input. -/
theorem C3_clear_policies_not_fresh :
    get_matching_policy (clear_policies (try_add PMState.init policy_uncond))
        conn_a = .error .indexError ∧
    get_matching_policy PMState.init conn_a = .ok none :=
  ⟨rfl, rfl⟩

/-- C5: `add_policy p` fails with an "already exists" error exactly when a
policy with id `p.policy_id` is stored (the id-map guard raises before any
mutation), and after a successful `add_policy p` the state holds exactly
one policy with that id and a second `add_policy p` signals the conflict. -/
theorem C5_duplicate_policy_id (ps : List Policy) (st : PMState) (p : Policy)
    (h : add_all ps PMState.init = .ok st) :
    ((∃ q ∈ st.policies, q.policy_id = p.policy_id) ↔
      ∃ e, add_policy st p = .error e) ∧
    ∀ st', add_policy st p = .ok st' →
      st'.policies.countP (fun q => q.policy_id == p.policy_id) = 1 ∧
      ∃ e, add_policy st' p = .error e := by
  have hwf : WF st := wf_add_all wf_init h
  constructor
  · rw [← hwf.map_iff p.policy_id]
    unfold add_policy
    constructor
    · intro hsome
      rw [if_pos hsome]
      exact ⟨_, rfl⟩
    · rintro ⟨e, he⟩
      by_contra hnone
      rw [if_neg hnone] at he
      exact absurd he (by simp)
  · intro st' hok
    have hguard : ¬(st.policy_id_map.lookup p.policy_id).isSome = true := by
      unfold add_policy at hok
      split at hok
      · exact absurd hok (by simp)
      case isFalse hg => exact hg
    have hparts : st'.policies = st.policies ++ [p] ∧
        st'.policy_id_map = (p.policy_id, p) :: st.policy_id_map := by
      unfold add_policy at hok
      rw [if_neg hguard] at hok
      cases hok
      exact ⟨rfl, rfl⟩
    obtain ⟨hpol, hmap⟩ := hparts
    have hnotin : ∀ q ∈ st.policies, ¬(q.policy_id == p.policy_id) = true := by
      intro q hq hbeq
      exact hguard ((hwf.map_iff p.policy_id).mpr
        ⟨q, hq, by simpa using hbeq⟩)
    constructor
    · rw [hpol]
      simp only [List.countP_append]
      rw [List.countP_eq_zero.mpr hnotin]
      simp [List.countP_cons]
    · refine ⟨"Policy ID " ++ p.policy_id ++ " already exists.", ?_⟩
      unfold add_policy
      rw [hmap, if_pos (by simp [List.lookup])]

theorem C5_duplicate_policy_id_witness :
    ((∃ q ∈ (try_add PMState.init policy_uncond).policies,
        q.policy_id = policy_allow_80.policy_id) ↔
      ∃ e, add_policy (try_add PMState.init policy_uncond) policy_allow_80
        = .error e) ∧
    ∀ st', add_policy (try_add PMState.init policy_uncond) policy_allow_80
        = .ok st' →
      st'.policies.countP
          (fun q => q.policy_id == policy_allow_80.policy_id) = 1 ∧
      ∃ e, add_policy st' policy_allow_80 = .error e :=
  C5_duplicate_policy_id [policy_uncond] _ policy_allow_80 rfl

/-- Decomposition of a successful `evaluate_connection`: afterwards the
returned engine state caches the connection's fingerprint at the returned
score, and the policy lookup succeeded. -/
theorem eval_ok_parts {ai : Connection → Except String ℚ} {pm : PMState}
    {st st1 : DEState} {c : Connection} {a1 : AnalyzedConnection}
    (heval : evaluate_connection ai pm st c = .ok (st1, a1)) :
    st1.cache_key_to_anomaly_score.lookup (make_cache_key c)
      = some a1.anomaly_score ∧
    ∃ mp, get_matching_policy pm c = .ok mp := by
  cases hlook : st.cache_key_to_anomaly_score.lookup (make_cache_key c) with
  | some s =>
    simp only [evaluate_connection, hlook] at heval
    cases hmp : get_matching_policy pm c with
    | error e => rw [hmp] at heval; simp at heval
    | ok mp =>
      rw [hmp] at heval
      simp only [Except.ok.injEq, Prod.mk.injEq] at heval
      obtain ⟨hst1, ha1⟩ := heval
      subst hst1
      subst ha1
      exact ⟨by simpa using hlook, mp, rfl⟩
  | none =>
    simp only [evaluate_connection, hlook] at heval
    cases hai : ai c with
    | error e => rw [hai] at heval; simp at heval
    | ok s =>
      rw [hai] at heval
      cases hmp : get_matching_policy pm c with
      | error e => rw [hmp] at heval; simp at heval
      | ok mp =>
        rw [hmp] at heval
        simp only [Except.ok.injEq, Prod.mk.injEq] at heval
        obtain ⟨hst1, ha1⟩ := heval
        subst hst1
        subst ha1
        refine ⟨?_, mp, rfl⟩
        simp [List.lookup]

/-- A cache hit: when the fingerprint is cached, evaluation succeeds with
the cached score, for any AI oracle (which is never consulted). -/
theorem eval_cache_hit (ai2 : Connection → Except String ℚ) (pm : PMState)
    (st : DEState) (c : Connection) (s : ℚ) (mp : Option Policy)
    (hlook : st.cache_key_to_anomaly_score.lookup (make_cache_key c)
      = some s)
    (hmp : get_matching_policy pm c = .ok mp) :
    ∃ st2 a2, evaluate_connection ai2 pm st c = .ok (st2, a2) ∧
      a2.anomaly_score = s := by
  simp only [evaluate_connection, hlook, hmp]
  exact ⟨_, _, rfl, rfl⟩

/-- C4: the memoization fingerprint depends only on the 4-tuple
(source_ip, destination_ip, destination_port, protocol): two connections
agreeing on those fields share a cache key, and once the first has been
evaluated, evaluating the second succeeds with the same anomaly score under
ANY AI oracle — the result is independent of the oracle, so the
`AIServiceClient` is not invoked. -/
theorem C4_fingerprint_memoization (c1 c2 : Connection)
    (h1 : c1.source_ip = c2.source_ip)
    (h2 : c1.destination_ip = c2.destination_ip)
    (h3 : c1.destination_port = c2.destination_port)
    (h4 : c1.protocol = c2.protocol)
    (ai : Connection → Except String ℚ) (pm : PMState) (st st1 : DEState)
    (a1 : AnalyzedConnection)
    (heval : evaluate_connection ai pm st c1 = .ok (st1, a1)) :
    make_cache_key c1 = make_cache_key c2 ∧
    ∀ ai2 : Connection → Except String ℚ, ∃ st2 a2,
      evaluate_connection ai2 pm st1 c2 = .ok (st2, a2) ∧
      a2.anomaly_score = a1.anomaly_score := by
  have hkey : make_cache_key c1 = make_cache_key c2 := by
    unfold make_cache_key
    rw [h1, h2, h3, h4]
  have hgf : ∀ f, getField c1 f = getField c2 f := by
    intro f
    cases f <;> simp [getField, h1, h2, h3, h4]
  obtain ⟨hcache, mp, hmp⟩ := eval_ok_parts heval
  refine ⟨hkey, fun ai2 => ?_⟩
  exact eval_cache_hit ai2 pm st1 c2 a1.anomaly_score mp
    (by rw [← hkey]; exact hcache)
    (by rw [← get_matching_policy_congr hgf pm]; exact hmp)

/-- The engine state after evaluating `conn_a` with a mocked score of 0.25
on an empty policy set. -/
def analyzed_a : AnalyzedConnection where
  connection_id := "a1"
  source_ip := "1.1.1.1"
  destination_ip := "8.8.8.8"
  destination_port := 80
  protocol := "TCP"
  timestamp := 0
  anomaly_score := mkRat 1 4
  decision := .drop
  policy_id := none

/-- The decision-engine state after that first evaluation. -/
def de_after_a : DEState where
  connection_by_id := [("a1", analyzed_a)]
  cache_key_to_anomaly_score := [("1.1.1.1-8.8.8.8-80-TCP", mkRat 1 4)]

theorem C4_fingerprint_memoization_witness :
    make_cache_key conn_a = make_cache_key conn_b ∧
    ∀ ai2 : Connection → Except String ℚ, ∃ st2 a2,
      evaluate_connection ai2 PMState.init de_after_a conn_b
        = .ok (st2, a2) ∧
      a2.anomaly_score = analyzed_a.anomaly_score :=
  C4_fingerprint_memoization conn_a conn_b rfl rfl rfl rfl
    (fun _ => .ok (mkRat 1 4)) PMState.init DEState.init de_after_a
    analyzed_a rfl

/-- C6: on a cache miss, an error from `AIServiceClient.get_anomaly_score`
propagates out of `evaluate_connection`.  The embedding is purely
functional, so an `.error` result carries no successor state: the caller
keeps the prior engine state, in which no score is cached under the
connection's fingerprint and no record is stored under its connection id,
so a later `get_connection` sees exactly what it saw before. -/
theorem C6_ai_error_propagates (ai : Connection → Except String ℚ)
    (pm : PMState) (st : DEState) (conn : Connection) (e : String)
    (hmiss : st.cache_key_to_anomaly_score.lookup (make_cache_key conn)
      = none)
    (hai : ai conn = .error e) :
    evaluate_connection ai pm st conn = .error (.aiError e) := by
  simp only [evaluate_connection, hmiss, hai]

theorem C6_ai_error_propagates_witness :
    evaluate_connection (fun _ => .error "Mock AI Service Error")
      PMState.init DEState.init conn_a
      = .error (.aiError "Mock AI Service Error") :=
  C6_ai_error_propagates _ PMState.init DEState.init conn_a
    "Mock AI Service Error" rfl rfl

/-- C7: for a dispatched batch whose `n` waiters are all pending, a scorer
success with `n` scores delivers score `i` to waiter `i` (the final waiter
states are exactly `scores.map result`, one outcome each), and a scorer
failure delivers that same error to every waiter. -/
theorem C7_positional_delivery
    (scorer : List Connection → Except String (List ℚ))
    (conns : List Connection) (n : Nat) (hn : conns.length = n) :
    (∀ scores : List ℚ, scorer conns = .ok scores → scores.length = n →
      send_batch_to_ai scorer conns (List.replicate n .pending)
        = scores.map FutureState.result) ∧
    (∀ e : String, scorer conns = .error e →
      send_batch_to_ai scorer conns (List.replicate n .pending)
        = List.replicate n (.failed e)) := by
  constructor
  · intro scores hok hlen
    unfold send_batch_to_ai
    by_cases hc : conns = []
    · rw [if_pos hc]
      have hn0 : n = 0 := by rw [← hn, hc]; rfl
      subst hn0
      have hs0 : scores = [] := List.length_eq_zero.mp hlen
      subst hs0
      rfl
    · rw [if_neg hc, hok]
      exact set_results_replicate scores n hlen
  · intro e herr
    unfold send_batch_to_ai
    by_cases hc : conns = []
    · rw [if_pos hc]
      have hn0 : n = 0 := by rw [← hn, hc]; rfl
      subst hn0
      rfl
    · rw [if_neg hc, herr]
      exact fail_all_replicate e n

theorem C7_positional_delivery_witness :
    send_batch_to_ai (fun _ => .ok [mkRat 1 2, mkRat 3 4]) [conn_a, conn_b]
      (List.replicate 2 .pending)
      = [.result (mkRat 1 2), .result (mkRat 3 4)] :=
  (C7_positional_delivery (fun _ => .ok [mkRat 1 2, mkRat 3 4])
    [conn_a, conn_b] 2 rfl).1 [mkRat 1 2, mkRat 3 4] rfl rfl

/-- C8 counterexample: the claim that protocol condition values are
compared after uppercase normalization is false on the code.  `"TCP"` is
the uppercasing of `"tcp"` (they agree up to letter case), yet a policy
whose condition is
`protocol == "tcp"` does not hold on `conn_a` (protocol `"TCP"`), and
`get_matching_policy` does not return it. -/
theorem C8_counterexample :
    conn_a.protocol = "TCP" ∧
    evaluate_policy_conditions policy_tcp_lower conn_a = false ∧
    get_matching_policy (try_add PMState.init policy_tcp_lower) conn_a
      = .ok none :=
  ⟨rfl, rfl, rfl⟩

/-- C8 (amended): protocol condition values are compared by strict string
equality with no case normalization inside the policy manager: a condition
`protocol == v` holds on `c` exactly when `c.protocol` equals `v`
character-for-character.  (Connection protocols are uppercased at the input
boundary; policy condition values are stored as written.) -/
theorem C8_strict_protocol_comparison (pid : String) (act : Action)
    (v : String) (c : Connection) :
    evaluate_policy_conditions
        { policy_id := pid
          conditions := [{ field := .protocol, value := .str v }]
          action := act } c
      = (c.protocol == v) := by
  by_cases h : c.protocol = v <;>
    simp [evaluate_policy_conditions, getField, h]

/-- C9: no batch handed to the scorer exceeds `max_batch_size` — neither
from the normal collection loop (`_collect_batch`) nor from the shutdown
drain (`_handle_shutdown`) — and an empty batch is never dispatched:
`_send_batch_to_ai` returns before invoking the scorer on an empty list
(for EVERY scorer, the result on `[]` is the unchanged waiters). -/
theorem C9_batch_size_cap (maxB : Nat)
    (pulls : List (Option (Connection × FutureState)))
    (queue : List (Connection × FutureState))
    (scorer : List Connection → Except String (List ℚ))
    (futures : List FutureState) :
    (collect_batch maxB pulls).length ≤ maxB ∧
    (drain_batch maxB queue).1.length ≤ maxB ∧
    send_batch_to_ai scorer [] futures = futures :=
  ⟨collect_batch_length maxB pulls, drain_batch_length maxB queue, rfl⟩

/-- C10 counterexample: the claim quantifies over states reachable by any
sequence of `add_policy`, `clear_policies` and `get_matching_policy` calls,
but after `add_policy` of a condition-free policy followed by
`clear_policies`, the stale `_policies_without_conditions` entry makes
`get_matching_policy` raise `IndexError` instead of returning a policy or
null. -/
theorem C10_counterexample :
    get_matching_policy
        (clear_policies (try_add PMState.init policy_uncond2)) conn_b
      = .error .indexError :=
  rfl

/-- C10 (amended): on every state reachable by `add_policy` and
`get_matching_policy` calls alone (no `clear_policies`, which fails to
reset the condition-free set), `get_matching_policy` is total: every order
in the candidate sets it unions is a valid index into the policy list, and
the call returns a stored policy or null, never failing. -/
theorem C10_lookup_total_without_clear (st : PMState) (c : Connection)
    (h : reachable_no_clear st) :
    (∀ i, (∃ s ∈ candidate_sets st c, i ∈ s) → i < st.policies.length) ∧
    ∃ r : Option Policy, get_matching_policy st c = .ok r ∧
      ∀ p, r = some p → p ∈ st.policies := by
  have hwf := wf_reachable h
  constructor
  · intro i hi
    rcases (mem_candidate_sets st c i).mp hi with hi | ⟨f, hi⟩
    · obtain ⟨p, hp, _⟩ := hwf.uncond_sub i hi
      exact (List.getElem?_eq_some.mp hp).1
    · obtain ⟨p, hp, _⟩ := hwf.idx_sub f _ i hi
      exact (List.getElem?_eq_some.mp hp).1
  · refine ⟨first_match_spec st.policies c, get_matching_policy_wf hwf c,
      fun p hp => ?_⟩
    exact List.mem_of_find?_eq_some hp

theorem C10_lookup_total_without_clear_witness :
    (∀ i, (∃ s ∈ candidate_sets (try_add PMState.init policy_uncond) conn_b,
        i ∈ s) →
      i < (try_add PMState.init policy_uncond).policies.length) ∧
    ∃ r : Option Policy,
      get_matching_policy (try_add PMState.init policy_uncond) conn_b
        = .ok r ∧
      ∀ p, r = some p → p ∈ (try_add PMState.init policy_uncond).policies :=
  C10_lookup_total_without_clear _ conn_b ⟨[policy_uncond], rfl⟩

end Firewall
